import Mathlib

/-!
Verification of the availability & booking engine of the
`server-mcp-crm-googlesheet` repository.

Time is modelled as `Int` seconds on the local (timezone-normalized) time
line; a Python `datetime` value is its timestamp, a `date` is its day index
(timestamp `ediv` 86400).  Busy/free intervals `(s, e)` denote the half-open
range `[s, e)`, matching the half-open semantics of the source's cursor
sweeps.  Provider responses (Google API dicts) are modelled as structures
with `Option` fields for keys that may be absent, and Python exceptions as
`Except` errors.
-/

/-- An interval `[s, e)` on the integer time line (seconds). -/
abbrev Iv : Type := Int × Int

/-- A point `x` is covered by a list of intervals when some member contains it. -/
def covers (l : List Iv) (x : Int) : Prop :=
  ∃ iv ∈ l, iv.1 ≤ x ∧ x < iv.2

instance (l : List Iv) (x : Int) : Decidable (covers l x) := by
  unfold covers; infer_instance

/-!
## `services.py` `check_availability`: busy-interval preprocessing and merge

Source (`src/services/google_calendar_meet/services.py`, lines 174-206):
the loop over `busy_slots` skips entries with `e_dt <= start` or
`s_dt >= end`, clips the rest to `[start, end]` (`s = max(s, start)`,
`e = min(e, end)`), sorts by start (`busy_intervals.sort(key=lambda x: x[0])`)
and then sweep-merges: an interval is merged into the last output interval
when its start is `<=` the running end, else appended.
-/

/-- The skip-and-clip preprocessing of `services.py`: keep intervals
overlapping the clip range `[lo, hi)` and clip them to its bounds. -/
def clipFilter (lo hi : Int) (l : List Iv) : List Iv :=
  (l.filter (fun iv => decide (lo < iv.2) && decide (iv.1 < hi))).map
    (fun iv => (max iv.1 lo, min iv.2 hi))

/-- The sort step: `busy_intervals.sort(key=lambda x: x[0])` (stable sort
ascending by interval start). -/
def sortByStart (l : List Iv) : List Iv :=
  l.mergeSort (fun a b => decide (a.1 ≤ b.1))

/-- One iteration of the `services.py` sweep loop: `acc` is the `merged`
list in reverse (its head is `merged[-1]`).  If the next interval starts at
or before the running end it is merged into the head, else pushed. -/
def mergeStep (acc : List Iv) (iv : Iv) : List Iv :=
  match acc with
  | [] => [iv]
  | (ls, le) :: rest => if iv.1 ≤ le then (ls, max le iv.2) :: rest else iv :: (ls, le) :: rest

/-- The full sweep: fold `mergeStep` over the (sorted) list, then undo the
head-at-front representation. -/
def sweepMerge (l : List Iv) : List Iv :=
  (l.foldl mergeStep []).reverse

/-- Structural-recursion form of the sweep, carrying the interval currently
being grown.  Proved equal to `sweepMerge` below. -/
def mergeGo (cur : Iv) : List Iv → List Iv
  | [] => [cur]
  | (s, e) :: rest =>
    if s ≤ cur.2 then mergeGo (cur.1, max cur.2 e) rest
    else cur :: mergeGo (s, e) rest

/-- The complete `IntervalMerger.merge` of `services.py`: skip/clip, sort,
sweep. -/
def mergeIntervals (lo hi : Int) (l : List Iv) : List Iv :=
  sweepMerge (sortByStart (clipFilter lo hi l))

lemma foldl_mergeStep_eq (rest : List Iv) :
    ∀ (cur : Iv) (acc : List Iv),
      rest.foldl mergeStep (cur :: acc) = (mergeGo cur rest).reverse ++ acc := by
  induction rest with
  | nil => intro cur acc; simp [mergeGo]
  | cons hd tl ih =>
    intro cur acc
    obtain ⟨s, e⟩ := hd
    obtain ⟨cs, ce⟩ := cur
    by_cases h : s ≤ ce
    · simp [List.foldl_cons, mergeStep, mergeGo, h, ih]
    · simp [List.foldl_cons, mergeStep, mergeGo, h, ih]

lemma sweepMerge_eq_mergeGo :
    ∀ l : List Iv, sweepMerge l = match l with
      | [] => []
      | cur :: rest => mergeGo cur rest := by
  intro l
  match l with
  | [] => rfl
  | cur :: rest =>
    simp only [sweepMerge, List.foldl_cons]
    have h0 : mergeStep [] cur = [cur] := rfl
    rw [h0, foldl_mergeStep_eq rest cur [], List.append_nil, List.reverse_reverse]

lemma mergeGo_fst_mem : ∀ (rest : List Iv) (cur iv : Iv), iv ∈ mergeGo cur rest →
    iv.1 = cur.1 ∨ ∃ jv ∈ rest, iv.1 = jv.1 := by
  intro rest
  induction rest with
  | nil =>
    intro cur iv hm
    simp only [mergeGo, List.mem_singleton] at hm
    exact Or.inl (by rw [hm])
  | cons hd tl ih =>
    intro cur iv hm
    obtain ⟨s, e⟩ := hd
    simp only [mergeGo] at hm
    by_cases h : s ≤ cur.2
    · simp only [h, if_pos] at hm
      rcases ih _ iv hm with h1 | ⟨jv, hjv, h2⟩
      · exact Or.inl h1
      · exact Or.inr ⟨jv, List.mem_cons_of_mem _ hjv, h2⟩
    · simp only [h, if_neg, not_false_iff, List.mem_cons] at hm
      rcases hm with h1 | h1
      · exact Or.inl (by rw [h1])
      · rcases ih _ iv h1 with h2 | ⟨jv, hjv, h2⟩
        · exact Or.inr ⟨(s, e), List.mem_cons_self _ _, h2⟩
        · exact Or.inr ⟨jv, List.mem_cons_of_mem _ hjv, h2⟩

lemma mergeGo_pairwise_sep : ∀ (rest : List Iv) (cur : Iv),
    (∀ jv ∈ rest, cur.1 ≤ jv.1) → rest.Pairwise (fun a b => a.1 ≤ b.1) →
    (mergeGo cur rest).Pairwise (fun a b => a.2 < b.1) := by
  intro rest
  induction rest with
  | nil => intro cur _ _; simp [mergeGo]
  | cons hd tl ih =>
    intro cur hle hsort
    obtain ⟨s, e⟩ := hd
    rw [List.pairwise_cons] at hsort
    simp only [mergeGo]
    by_cases h : s ≤ cur.2
    · simp only [h, if_pos]
      exact ih _ (fun jv hjv => hle jv (List.mem_cons_of_mem _ hjv)) hsort.2
    · simp only [h, if_neg, not_false_iff]
      rw [List.pairwise_cons]
      refine ⟨fun iv hiv => ?_, ih _ hsort.1 hsort.2⟩
      rcases mergeGo_fst_mem _ _ _ hiv with h1 | ⟨jv, hjv, h2⟩
      · simp only [h1]; omega
      · have := hsort.1 jv hjv
        omega

lemma mergeGo_fst_sorted : ∀ (rest : List Iv) (cur : Iv),
    (∀ jv ∈ rest, cur.1 ≤ jv.1) → rest.Pairwise (fun a b => a.1 ≤ b.1) →
    (mergeGo cur rest).Pairwise (fun a b => a.1 ≤ b.1) := by
  intro rest
  induction rest with
  | nil => intro cur _ _; simp [mergeGo]
  | cons hd tl ih =>
    intro cur hle hsort
    obtain ⟨s, e⟩ := hd
    rw [List.pairwise_cons] at hsort
    have hcs : cur.1 ≤ s := (hle (s, e) (List.mem_cons_self _ _))
    simp only [mergeGo]
    by_cases h : s ≤ cur.2
    · simp only [h, if_pos]
      exact ih _ (fun jv hjv => hle jv (List.mem_cons_of_mem _ hjv)) hsort.2
    · simp only [h, if_neg, not_false_iff]
      rw [List.pairwise_cons]
      refine ⟨fun iv hiv => ?_, ih _ hsort.1 hsort.2⟩
      rcases mergeGo_fst_mem _ _ _ hiv with h1 | ⟨jv, hjv, h2⟩
      · simp only [h1]; omega
      · have := hsort.1 jv hjv
        omega

lemma mergeGo_covers : ∀ (rest : List Iv) (cur : Iv) (x : Int),
    (∀ jv ∈ rest, cur.1 ≤ jv.1) → rest.Pairwise (fun a b => a.1 ≤ b.1) →
    (covers (mergeGo cur rest) x ↔ (cur.1 ≤ x ∧ x < cur.2) ∨ covers rest x) := by
  intro rest
  induction rest with
  | nil =>
    intro cur x _ _
    simp [mergeGo, covers]
  | cons hd tl ih =>
    intro cur x hle hsort
    obtain ⟨s, e⟩ := hd
    rw [List.pairwise_cons] at hsort
    have hcs : cur.1 ≤ s := (hle (s, e) (List.mem_cons_self _ _))
    simp only [mergeGo]
    by_cases h : s ≤ cur.2
    · simp only [h, if_pos]
      rw [ih (cur.1, max cur.2 e) x (fun jv hjv => hle jv (List.mem_cons_of_mem _ hjv)) hsort.2]
      simp only [covers, List.mem_cons]
      constructor
      · rintro (⟨h1, h2⟩ | ⟨iv, hiv, h3⟩)
        · simp only [max_def] at h2
          by_cases he : cur.2 ≤ e
          · simp only [he, if_pos] at h2
            by_cases hx : x < cur.2
            · exact Or.inl ⟨h1, hx⟩
            · exact Or.inr ⟨(s, e), Or.inl rfl, by constructor <;> omega⟩
          · simp only [he, if_neg, not_false_iff] at h2
            exact Or.inl ⟨h1, h2⟩
        · exact Or.inr ⟨iv, Or.inr hiv, h3⟩
      · rintro (⟨h1, h2⟩ | ⟨iv, hiv | hiv, h3⟩)
        · exact Or.inl ⟨h1, by omega⟩
        · subst hiv
          simp only at h3
          exact Or.inl ⟨by omega, by omega⟩
        · exact Or.inr ⟨iv, hiv, h3⟩
    · simp only [h, if_neg, not_false_iff]
      have htail := ih (s, e) x hsort.1 hsort.2
      simp only [covers, List.mem_cons] at htail ⊢
      constructor
      · rintro ⟨iv, hiv | hiv, h3⟩
        · subst hiv; exact Or.inl h3
        · rcases htail.1 ⟨iv, hiv, h3⟩ with h4 | ⟨jv, hjv, h5⟩
          · exact Or.inr ⟨(s, e), Or.inl rfl, h4⟩
          · exact Or.inr ⟨jv, Or.inr hjv, h5⟩
      · rintro (h3 | ⟨jv, hjv | hjv, h5⟩)
        · exact ⟨cur, Or.inl rfl, h3⟩
        · subst hjv
          obtain ⟨jv, hjv, h6⟩ := htail.2 (Or.inl h5)
          exact ⟨jv, Or.inr hjv, h6⟩
        · obtain ⟨kv, hkv, h6⟩ := htail.2 (Or.inr ⟨jv, hjv, h5⟩)
          exact ⟨kv, Or.inr hkv, h6⟩

lemma covers_perm {l₁ l₂ : List Iv} (h : l₁.Perm l₂) (x : Int) :
    covers l₁ x ↔ covers l₂ x := by
  simp only [covers]
  constructor
  · rintro ⟨iv, hiv, h2⟩; exact ⟨iv, h.mem_iff.1 hiv, h2⟩
  · rintro ⟨iv, hiv, h2⟩; exact ⟨iv, h.mem_iff.2 hiv, h2⟩

lemma sortByStart_sorted (l : List Iv) :
    (sortByStart l).Pairwise (fun a b => a.1 ≤ b.1) := by
  have h := @List.sorted_mergeSort Iv (fun a b => decide (a.1 ≤ b.1))
    (fun a b c hab hbc => by simp only [decide_eq_true_eq] at *; omega)
    (fun a b => by simp only [Bool.or_eq_true, decide_eq_true_eq]; omega) l
  exact h.imp (fun h' => by simpa using h')

lemma sweepMerge_sorted_of_sorted {l : List Iv}
    (h : l.Pairwise (fun a b => a.1 ≤ b.1)) :
    (sweepMerge l).Pairwise (fun a b => a.1 ≤ b.1) := by
  rw [sweepMerge_eq_mergeGo]
  match l with
  | [] => simp
  | cur :: rest =>
    rw [List.pairwise_cons] at h
    exact mergeGo_fst_sorted rest cur h.1 h.2

lemma sweepMerge_sep_of_sorted {l : List Iv}
    (h : l.Pairwise (fun a b => a.1 ≤ b.1)) :
    (sweepMerge l).Pairwise (fun a b => a.2 < b.1) := by
  rw [sweepMerge_eq_mergeGo]
  match l with
  | [] => simp
  | cur :: rest =>
    rw [List.pairwise_cons] at h
    exact mergeGo_pairwise_sep rest cur h.1 h.2

lemma sweepMerge_covers_of_sorted {l : List Iv}
    (h : l.Pairwise (fun a b => a.1 ≤ b.1)) (x : Int) :
    covers (sweepMerge l) x ↔ covers l x := by
  rw [sweepMerge_eq_mergeGo]
  match l with
  | [] => simp
  | cur :: rest =>
    rw [List.pairwise_cons] at h
    rw [mergeGo_covers rest cur x h.1 h.2]
    simp only [covers, List.mem_cons]
    constructor
    · rintro (h1 | ⟨iv, hiv, h2⟩)
      · exact ⟨cur, Or.inl rfl, h1⟩
      · exact ⟨iv, Or.inr hiv, h2⟩
    · rintro ⟨iv, hiv | hiv, h2⟩
      · subst hiv; exact Or.inl h2
      · exact Or.inr ⟨iv, hiv, h2⟩

/-- C3: the claim's three conclusions for `mergeIntervals`, with no
hypothesis on the input multiset or clip window. -/
theorem mergeIntervals_correct (lo hi : Int) (l : List Iv) :
    (mergeIntervals lo hi l).Pairwise (fun a b => a.1 ≤ b.1) ∧
    (mergeIntervals lo hi l).Pairwise (fun a b => a.2 < b.1) ∧
    ∀ x, covers (mergeIntervals lo hi l) x ↔ covers (clipFilter lo hi l) x := by
  have hsorted := sortByStart_sorted (clipFilter lo hi l)
  refine ⟨sweepMerge_sorted_of_sorted hsorted, sweepMerge_sep_of_sorted hsorted, fun x => ?_⟩
  rw [mergeIntervals, sweepMerge_covers_of_sorted hsorted x]
  exact covers_perm (List.mergeSort_perm (clipFilter lo hi l) _) x

/-!
## `calendar_service.py` `check_availability`: free-slot computation

Source (`src/services/google_calendar_meet/calendar_service.py`, lines
196-221): a cursor sweep over the provider's busy list.  Entries with
`e <= start` or `s >= end_day` are skipped; if the cursor is before the
busy start a free slot `(current_time, s)` is emitted; the cursor advances
to `max(current_time, e)`; after the loop a tail slot up to `end_day` is
emitted; finally slots shorter than 900 seconds are dropped.
-/

/-- The cursor sweep of `check_availability` over the busy list, starting
from cursor position `cur`. -/
def freeWalk (start endDay : Int) (cur : Int) : List Iv → List Iv
  | [] => if cur < endDay then [(cur, endDay)] else []
  | (s, e) :: rest =>
    if e ≤ start ∨ s ≥ endDay then freeWalk start endDay cur rest
    else (if cur < s then [(cur, s)] else []) ++ freeWalk start endDay (max cur e) rest

/-- The raw candidate free slots (`free_slots` in the source). -/
def free_slots (start endDay : Int) (busy : List Iv) : List Iv :=
  freeWalk start endDay start busy

/-- The returned slots (`slots_fmt` in the source): candidates of duration
at least 900 seconds (15 minutes).  The `strftime`/ISO string formatting of
the source is dropped; each slot is kept as its `(start, end)` pair. -/
def slotsFmt (start endDay : Int) (busy : List Iv) : List Iv :=
  (free_slots start endDay busy).filter (fun p => decide (p.2 - p.1 ≥ 900))

lemma covers_append (l₁ l₂ : List Iv) (x : Int) :
    covers (l₁ ++ l₂) x ↔ covers l₁ x ∨ covers l₂ x := by
  simp only [covers, List.mem_append]
  constructor
  · rintro ⟨iv, hiv | hiv, h2⟩
    · exact Or.inl ⟨iv, hiv, h2⟩
    · exact Or.inr ⟨iv, hiv, h2⟩
  · rintro (⟨iv, hiv, h2⟩ | ⟨iv, hiv, h2⟩)
    · exact ⟨iv, Or.inl hiv, h2⟩
    · exact ⟨iv, Or.inr hiv, h2⟩

lemma covers_cons (iv : Iv) (l : List Iv) (x : Int) :
    covers (iv :: l) x ↔ (iv.1 ≤ x ∧ x < iv.2) ∨ covers l x := by
  simp only [covers, List.mem_cons]
  constructor
  · rintro ⟨jv, hjv | hjv, h2⟩
    · subst hjv; exact Or.inl h2
    · exact Or.inr ⟨jv, hjv, h2⟩
  · rintro (h2 | ⟨jv, hjv, h2⟩)
    · exact ⟨iv, Or.inl rfl, h2⟩
    · exact ⟨jv, Or.inr hjv, h2⟩

/-- Every emitted slot lies at or after the cursor, is nonempty, and ends
by `endDay`.  Holds for an arbitrary (even unsorted) busy list. -/
lemma freeWalk_slot_bounds : ∀ (busy : List Iv) (start endDay cur a b : Int),
    (a, b) ∈ freeWalk start endDay cur busy → cur ≤ a ∧ a < b ∧ b ≤ endDay := by
  intro busy
  induction busy with
  | nil =>
    intro start endDay cur a b hm
    simp only [freeWalk] at hm
    by_cases h : cur < endDay
    · simp only [h, if_pos, List.mem_singleton, Prod.mk.injEq] at hm
      omega
    · simp [h] at hm
  | cons hd tl ih =>
    intro start endDay cur a b hm
    obtain ⟨s, e⟩ := hd
    simp only [freeWalk] at hm
    by_cases h : e ≤ start ∨ s ≥ endDay
    · simp only [h, if_pos] at hm
      exact ih start endDay cur a b hm
    · simp only [h, if_neg, not_false_iff, List.mem_append] at hm
      rcases hm with hm | hm
      · by_cases hcs : cur < s
        · simp only [hcs, if_pos, List.mem_singleton, Prod.mk.injEq] at hm
          omega
        · simp [hcs] at hm
      · have := ih start endDay (max cur e) a b hm
        omega

lemma covers_nil (x : Int) : covers [] x ↔ False := by
  simp [covers]

lemma covers_singleton (iv : Iv) (x : Int) :
    covers [iv] x ↔ iv.1 ≤ x ∧ x < iv.2 := by
  simp [covers]

lemma freeWalk_slot_bounds' (busy : List Iv) (start endDay cur : Int) :
    ∀ p ∈ freeWalk start endDay cur busy, cur ≤ p.1 ∧ p.1 < p.2 ∧ p.2 ≤ endDay := by
  intro p hp
  obtain ⟨a, b⟩ := p
  exact freeWalk_slot_bounds busy start endDay cur a b hp

/-- Coverage: amid a merged busy list lying at or after the cursor, the
emitted slots and the busy list together cover exactly `[cur, endDay)`. -/
lemma freeWalk_covers : ∀ (busy : List Iv) (start endDay cur : Int),
    start ≤ cur →
    (∀ iv ∈ busy, cur ≤ iv.1 ∧ iv.1 < iv.2 ∧ iv.2 ≤ endDay) →
    busy.Pairwise (fun a b => a.2 ≤ b.1) →
    ∀ x, (covers (freeWalk start endDay cur busy) x ∨ covers busy x) ↔
      (cur ≤ x ∧ x < endDay) := by
  intro busy
  induction busy with
  | nil =>
    intro start endDay cur _ _ _ x
    simp only [freeWalk, covers_nil, or_false]
    by_cases h : cur < endDay
    · simp only [h, if_pos, covers_singleton]
    · simp only [h, if_neg, not_false_iff, covers_nil, false_iff]
      omega
  | cons hd tl ih =>
    intro start endDay cur hstart hb hsep x
    obtain ⟨s, e⟩ := hd
    rw [List.pairwise_cons] at hsep
    have hhd := hb (s, e) (List.mem_cons_self _ _)
    dsimp only at hhd
    have hskip : ¬(e ≤ start ∨ s ≥ endDay) := by omega
    have hmax : max cur e = e := by omega
    have hb' : ∀ jv ∈ tl, e ≤ jv.1 ∧ jv.1 < jv.2 ∧ jv.2 ≤ endDay := fun jv hjv =>
      ⟨hsep.1 jv hjv, (hb jv (List.mem_cons_of_mem _ hjv)).2.1,
        (hb jv (List.mem_cons_of_mem _ hjv)).2.2⟩
    have ihx := ih start endDay e (by omega) hb' hsep.2 x
    simp only [freeWalk, hskip, if_neg, not_false_iff, hmax, covers_append, covers_cons]
    by_cases hcs : cur < s
    · simp only [hcs, if_pos, covers_singleton]
      constructor
      · rintro ((h1 | h1) | (h1 | h1))
        · omega
        · have := ihx.1 (Or.inl h1); omega
        · omega
        · have := ihx.1 (Or.inr h1); omega
      · intro h1
        by_cases h2 : x < s
        · exact Or.inl (Or.inl (by omega))
        · by_cases h3 : x < e
          · exact Or.inr (Or.inl (by omega))
          · rcases ihx.2 (by omega) with h4 | h4
            · exact Or.inl (Or.inr h4)
            · exact Or.inr (Or.inr h4)
    · simp only [hcs, if_neg, not_false_iff, covers_nil, false_or, List.nil_append]
      constructor
      · rintro (h1 | (h1 | h1))
        · have := ihx.1 (Or.inl h1); omega
        · omega
        · have := ihx.1 (Or.inr h1); omega
      · intro h1
        by_cases h3 : x < e
        · exact Or.inr (Or.inl (by omega))
        · rcases ihx.2 (by omega) with h4 | h4
          · exact Or.inl h4
          · exact Or.inr (Or.inr h4)

/-- The emitted slots are pairwise separated (disjoint and in order) when
the busy list is merged and lies at or after the cursor. -/
lemma freeWalk_pairwise : ∀ (busy : List Iv) (start endDay cur : Int),
    start ≤ cur →
    (∀ iv ∈ busy, cur ≤ iv.1 ∧ iv.1 < iv.2 ∧ iv.2 ≤ endDay) →
    busy.Pairwise (fun a b => a.2 ≤ b.1) →
    (freeWalk start endDay cur busy).Pairwise (fun p q => p.2 ≤ q.1) := by
  intro busy
  induction busy with
  | nil =>
    intro start endDay cur _ _ _
    by_cases h : cur < endDay <;> simp [freeWalk, h]
  | cons hd tl ih =>
    intro start endDay cur hstart hb hsep
    obtain ⟨s, e⟩ := hd
    rw [List.pairwise_cons] at hsep
    have hhd := hb (s, e) (List.mem_cons_self _ _)
    dsimp only at hhd
    have hskip : ¬(e ≤ start ∨ s ≥ endDay) := by omega
    have hmax : max cur e = e := by omega
    have hb' : ∀ jv ∈ tl, e ≤ jv.1 ∧ jv.1 < jv.2 ∧ jv.2 ≤ endDay := fun jv hjv =>
      ⟨hsep.1 jv hjv, (hb jv (List.mem_cons_of_mem _ hjv)).2.1,
        (hb jv (List.mem_cons_of_mem _ hjv)).2.2⟩
    simp only [freeWalk, hskip, if_neg, not_false_iff, hmax]
    rw [List.pairwise_append]
    refine ⟨?_, ih start endDay e (by omega) hb' hsep.2, ?_⟩
    · by_cases hcs : cur < s <;> simp [hcs]
    · intro p hp q hq
      by_cases hcs : cur < s
      · simp only [hcs, if_pos, List.mem_singleton] at hp
        subst hp
        have hq2 := freeWalk_slot_bounds' tl start endDay e q hq
        dsimp only
        omega
      · simp [hcs] at hp

/-- The emitted slots never overlap a busy interval of a merged busy list
lying at or after the cursor. -/
lemma freeWalk_busy_disjoint : ∀ (busy : List Iv) (start endDay cur : Int),
    start ≤ cur →
    (∀ iv ∈ busy, cur ≤ iv.1 ∧ iv.1 < iv.2 ∧ iv.2 ≤ endDay) →
    busy.Pairwise (fun a b => a.2 ≤ b.1) →
    ∀ p ∈ freeWalk start endDay cur busy, ∀ iv ∈ busy, p.2 ≤ iv.1 ∨ iv.2 ≤ p.1 := by
  intro busy
  induction busy with
  | nil => intro start endDay cur _ _ _ p _ iv hiv; simp at hiv
  | cons hd tl ih =>
    intro start endDay cur hstart hb hsep p hp iv hiv
    obtain ⟨s, e⟩ := hd
    rw [List.pairwise_cons] at hsep
    have hhd := hb (s, e) (List.mem_cons_self _ _)
    dsimp only at hhd
    have hskip : ¬(e ≤ start ∨ s ≥ endDay) := by omega
    have hmax : max cur e = e := by omega
    have hb' : ∀ jv ∈ tl, e ≤ jv.1 ∧ jv.1 < jv.2 ∧ jv.2 ≤ endDay := fun jv hjv =>
      ⟨hsep.1 jv hjv, (hb jv (List.mem_cons_of_mem _ hjv)).2.1,
        (hb jv (List.mem_cons_of_mem _ hjv)).2.2⟩
    simp only [freeWalk, hskip, if_neg, not_false_iff, hmax, List.mem_append] at hp
    rcases hp with hp | hp
    · by_cases hcs : cur < s
      · simp only [hcs, if_pos, List.mem_singleton] at hp
        subst hp
        rcases List.mem_cons.1 hiv with h1 | h1
        · subst h1; dsimp only; omega
        · have := hb' iv h1
          dsimp only; omega
      · simp [hcs] at hp
    · rcases List.mem_cons.1 hiv with h1 | h1
      · have hub := freeWalk_slot_bounds' tl start endDay e p hp
        subst h1; dsimp only; omega
      · exact ih start endDay e (by omega) hb' hsep.2 p hp iv h1

/-- C2 (counterexample to the claim as stated): with window `[0, 3600)`
and the merged, clipped busy set `[(600, 3600)]`, the returned (duration-
filtered) free slots are empty — the only candidate gap `[0, 600)` lasts
just 10 minutes — so the union of the returned slots with the busy set
fails to cover the in-window instant `0`. -/
theorem slotsFmt_not_exact_cover :
    slotsFmt 0 3600 [(600, 3600)] = [] ∧
    ((0:Int) ≤ 0 ∧ (0:Int) < 3600) ∧
    ¬ covers (slotsFmt 0 3600 [(600, 3600)] ++ [((600:Int), (3600:Int))]) 0 := by
  decide

/-- C2 (amended): for a merged (sorted, pairwise-disjoint, clipped) busy
set, the candidate slots of the cursor sweep tile `[start, endDay)` exactly
together with the busy set — disjoint from each other and from busy, with
no gaps — and the returned (15-minute-filtered) slots are a sub-collection
of the candidates, hence still pairwise disjoint and ordered. -/
theorem free_slots_tiling (start endDay : Int) (busy : List Iv)
    (hb : ∀ iv ∈ busy, start ≤ iv.1 ∧ iv.1 < iv.2 ∧ iv.2 ≤ endDay)
    (hsep : busy.Pairwise (fun a b => a.2 ≤ b.1)) :
    (∀ x, covers (free_slots start endDay busy ++ busy) x ↔ start ≤ x ∧ x < endDay) ∧
    (free_slots start endDay busy).Pairwise (fun p q => p.2 ≤ q.1) ∧
    (∀ p ∈ free_slots start endDay busy, start ≤ p.1 ∧ p.1 < p.2 ∧ p.2 ≤ endDay) ∧
    (∀ p ∈ free_slots start endDay busy, ∀ iv ∈ busy, p.2 ≤ iv.1 ∨ iv.2 ≤ p.1) ∧
    (∀ p ∈ slotsFmt start endDay busy, p ∈ free_slots start endDay busy) ∧
    (slotsFmt start endDay busy).Pairwise (fun p q => p.2 ≤ q.1) := by
  have hb2 : ∀ iv ∈ busy, start ≤ iv.1 ∧ iv.1 < iv.2 ∧ iv.2 ≤ endDay := hb
  refine ⟨fun x => ?_, ?_, ?_, ?_, ?_, ?_⟩
  · rw [covers_append]
    exact freeWalk_covers busy start endDay start le_rfl hb2 hsep x
  · exact freeWalk_pairwise busy start endDay start le_rfl hb2 hsep
  · exact freeWalk_slot_bounds' busy start endDay start
  · exact freeWalk_busy_disjoint busy start endDay start le_rfl hb2 hsep
  · intro p hp
    exact List.filter_sublist _ |>.mem hp
  · exact List.Pairwise.sublist (List.filter_sublist _)
      (freeWalk_pairwise busy start endDay start le_rfl hb2 hsep)

/-- Witness for `free_slots_tiling` at window `[0, 3600)` with busy set
`[(600, 1800)]`. -/
theorem free_slots_tiling_witness :
    covers (free_slots 0 3600 [(600, 1800)] ++ [((600:Int), (1800:Int))]) 300 ∧
    (slotsFmt 0 3600 [(600, 1800)]).Pairwise (fun p q => p.2 ≤ q.1) := by
  have h := free_slots_tiling 0 3600 [(600, 1800)] (by decide) (by decide)
  exact ⟨(h.1 300).2 (by decide), h.2.2.2.2.2⟩

/-- C9: every returned slot lasts at least 900 seconds (15 minutes), for
any window and any busy list; and concretely a busy set leaving only the
10-minute gap `[0, 600)` in the window `[0, 3600)` yields no slot at all. -/
theorem slotsFmt_min_duration :
    (∀ start endDay : Int, ∀ busy : List Iv, ∀ a b : Int,
      (a, b) ∈ slotsFmt start endDay busy → b - a ≥ 900) ∧
    slotsFmt 0 3600 [(600, 3600)] = [] := by
  constructor
  · intro start endDay busy a b hm
    have := List.of_mem_filter hm
    simpa using this
  · decide

/-- Witness for `slotsFmt_min_duration`: the slot `(0, 1800)` is returned
for window `[0, 3600)` with busy set `[(1800, 3600)]`, and the theorem
yields its minimum duration. -/
theorem slotsFmt_min_duration_witness :
    ((0:Int), (1800:Int)) ∈ slotsFmt 0 3600 [(1800, 3600)] ∧ (1800:Int) - 0 ≥ 900 :=
  ⟨by decide, slotsFmt_min_duration.1 0 3600 [(1800, 3600)] 0 1800 (by decide)⟩

/-!
## `calendar_service.py` `check_availability`: the business-day scan

Source lines 166-229.  The local time line is flat `Int` seconds:
`now.date()` is `now / 86400`, a date `d`'s 08:00 and 17:00 are
`d * 86400 + 28800` and `d * 86400 + 61200`, and `date.weekday()`
(Monday = 0 … Sunday = 6) is `(d + w0) % 7` where `w0` is the weekday of
day 0.  The provider's `freebusy().query` is the parameter `busyQ`; a
report entry keeps the day index in place of the `strftime` label.  The
`while dias_encontrados < 3 and offset < 14` loop is run on the structural
fuel `14 - offset` (initially 14), which decreases as `offset` increases —
the source's termination argument — so the fuel never cuts the loop short.
-/

def weekdayOf (w0 d : Int) : Int := (d + w0) % 7

def dayOpen (d : Int) : Int := d * 86400 + 28800

def dayClose (d : Int) : Int := d * 86400 + 61200

/-- `start = max(now, start_day) if offset == 0 else start_day`. -/
def scanStart (now d : Int) (offset : Nat) : Int :=
  if offset = 0 then max now (dayOpen d) else dayOpen d

/-- One iteration of the scan body for a given `offset`: `none` means the
source's `continue` (weekend, no time left today, or no sufficient slots);
`some (d, slots)` is a report entry, which also increments
`dias_encontrados`. -/
def dayEntry (busyQ : Int → Int → List Iv) (now w0 : Int) (offset : Nat) :
    Option (Int × List Iv) :=
  let d : Int := now / 86400 + offset
  if 5 ≤ weekdayOf w0 d then none
  else if dayClose d ≤ scanStart now d offset then none
  else
    let slots := slotsFmt (scanStart now d offset) (dayClose d)
      (busyQ (scanStart now d offset) (dayClose d))
    if slots = [] then none else some (d, slots)

/-- The scan loop: `found` is `dias_encontrados`, `fuel = 14 - offset`. -/
def scanLoop (busyQ : Int → Int → List Iv) (now w0 : Int) :
    Nat → Nat → Nat → List (Int × List Iv)
  | _, _, 0 => []
  | found, offset, fuel + 1 =>
    if found < 3 ∧ offset < 14 then
      match dayEntry busyQ now w0 offset with
      | none => scanLoop busyQ now w0 found (offset + 1) fuel
      | some entry => entry :: scanLoop busyQ now w0 (found + 1) (offset + 1) fuel
    else []

/-- `CalendarService.check_availability`: scan from `offset = 0`,
`dias_encontrados = 0`, with the loop bound `offset < 14`. -/
def check_availability (busyQ : Int → Int → List Iv) (now w0 : Int) :
    List (Int × List Iv) :=
  scanLoop busyQ now w0 0 0 14

lemma dayEntry_spec (busyQ : Int → Int → List Iv) (now w0 : Int) (offset : Nat)
    (d : Int) (slots : List Iv) (h : dayEntry busyQ now w0 offset = some (d, slots)) :
    d = now / 86400 + offset ∧ weekdayOf w0 d < 5 ∧
    scanStart now d offset < dayClose d ∧
    slots = slotsFmt (scanStart now d offset) (dayClose d)
      (busyQ (scanStart now d offset) (dayClose d)) ∧ slots ≠ [] := by
  simp only [dayEntry] at h
  split_ifs at h with h1 h2 h3
  simp only [Option.some.injEq, Prod.mk.injEq] at h
  obtain ⟨hd, hs⟩ := h
  subst hd
  subst hs
  exact ⟨rfl, by omega, by omega, rfl, h3⟩

lemma scanLoop_length (busyQ : Int → Int → List Iv) (now w0 : Int) :
    ∀ (fuel found offset : Nat),
      (scanLoop busyQ now w0 found offset fuel).length ≤ 3 - found := by
  intro fuel
  induction fuel with
  | zero => intro found offset; simp [scanLoop]
  | succ n ih =>
    intro found offset
    simp only [scanLoop]
    split_ifs with h1
    · match hde : dayEntry busyQ now w0 offset with
      | none => exact ih found (offset + 1)
      | some entry =>
        have := ih (found + 1) (offset + 1)
        simp only [List.length_cons]
        omega
    · simp

lemma free_slots_saturated (s e : Int) (h : s < e) : slotsFmt s e [(s, e)] = [] := by
  have h1 : ¬(e ≤ s ∨ s ≥ e) := by omega
  have h2 : ¬(s < s) := lt_irrefl s
  have h3 : max s e = e := max_eq_right h.le
  simp only [slotsFmt, free_slots, freeWalk]
  rw [if_neg h1, if_neg h2, h3, if_neg (lt_irrefl e)]
  rfl

lemma dayEntry_saturated (now w0 : Int) (offset : Nat) :
    dayEntry (fun lo hi => [(lo, hi)]) now w0 offset = none := by
  simp only [dayEntry]
  split_ifs with h1 h2 h3
  · rfl
  · rfl
  · rfl
  · exact absurd (free_slots_saturated _ _ (by omega)) h3

lemma scanLoop_saturated (now w0 : Int) :
    ∀ (fuel found offset : Nat),
      scanLoop (fun lo hi => [(lo, hi)]) now w0 found offset fuel = [] := by
  intro fuel
  induction fuel with
  | zero => intro found offset; simp [scanLoop]
  | succ n ih =>
    intro found offset
    simp only [scanLoop, dayEntry_saturated]
    split_ifs with h1
    · exact ih found (offset + 1)
    · rfl

/-- C4: the scan always returns at most `days_needed = 3` report entries,
and on a calendar whose provider reports every queried range fully busy it
returns the empty report (fewer than 3 entries) — the loop stops at
`offset = max_offset = 14` instead of running forever. -/
theorem check_availability_bounded :
    (∀ (busyQ : Int → Int → List Iv) (now w0 : Int),
      (check_availability busyQ now w0).length ≤ 3) ∧
    (∀ now w0 : Int,
      check_availability (fun lo hi => [(lo, hi)]) now w0 = []) := by
  constructor
  · intro busyQ now w0
    have := scanLoop_length busyQ now w0 14 0 0
    simpa [check_availability] using this
  · intro now w0
    simpa [check_availability] using scanLoop_saturated now w0 14 0 0

lemma scanLoop_entry_mem (busyQ : Int → Int → List Iv) (now w0 : Int) :
    ∀ (fuel found offset : Nat) (d : Int) (slots : List Iv),
      (d, slots) ∈ scanLoop busyQ now w0 found offset fuel →
      ∃ offset' : Nat, dayEntry busyQ now w0 offset' = some (d, slots) := by
  intro fuel
  induction fuel with
  | zero => intro found offset d slots hm; simp [scanLoop] at hm
  | succ n ih =>
    intro found offset d slots hm
    simp only [scanLoop] at hm
    split_ifs at hm with h1
    · rcases hde : dayEntry busyQ now w0 offset with _ | entry
      · rw [hde] at hm
        exact ih found (offset + 1) d slots hm
      · rw [hde] at hm
        rcases List.mem_cons.1 hm with h2 | h2
        · exact ⟨offset, by rw [hde, h2]⟩
        · exact ih (found + 1) (offset + 1) d slots h2
    · simp at hm

lemma slotsFmt_nil (s e : Int) (h : s < e) (hdur : e - s ≥ 900) :
    slotsFmt s e [] = [(s, e)] := by
  simp [slotsFmt, free_slots, freeWalk, h, hdur]

/-- C7: every slot of every report entry starts at or after
`max(now, 08:00 of its day)` — today's availability never includes
already-elapsed time; and for a day other than today with an all-free
calendar the reported slot is exactly the full `[08:00, 17:00)` window,
i.e. days at `offset > 0` use the unclipped open bound. -/
theorem check_availability_clips_today :
    (∀ (busyQ : Int → Int → List Iv) (now w0 d : Int) (slots : List Iv) (a b : Int),
      (d, slots) ∈ check_availability busyQ now w0 → (a, b) ∈ slots →
      max now (dayOpen d) ≤ a) ∧
    (∀ (now w0 d : Int) (slots : List Iv),
      (d, slots) ∈ check_availability (fun _ _ => ([] : List Iv)) now w0 →
      d ≠ now / 86400 → slots = [(dayOpen d, dayClose d)]) := by
  constructor
  · intro busyQ now w0 d slots a b hm hs
    obtain ⟨offset', hde⟩ := scanLoop_entry_mem busyQ now w0 14 0 0 d slots hm
    obtain ⟨hd, _, hlt, hslots, _⟩ := dayEntry_spec busyQ now w0 offset' d slots hde
    subst hslots
    have hmem : (a, b) ∈ free_slots (scanStart now d offset') (dayClose d)
        (busyQ (scanStart now d offset') (dayClose d)) :=
      (List.filter_sublist _).mem hs
    have hb := freeWalk_slot_bounds _ _ _ _ a b hmem
    have hstart : max now (dayOpen d) ≤ scanStart now d offset' := by
      rcases Nat.eq_zero_or_pos offset' with ho | ho
      · simp [scanStart, ho]
      · have h0 : scanStart now d offset' = dayOpen d := by
          simp [scanStart, Nat.pos_iff_ne_zero.1 ho]
        rw [h0]
        have h2 : (offset' : Int) ≥ 1 := by exact_mod_cast ho
        have h3 : now ≤ dayOpen d := by
          simp only [dayOpen, hd]
          omega
        exact max_le h3 le_rfl
    exact le_trans hstart hb.1
  · intro now w0 d slots hm hne
    obtain ⟨offset', hde⟩ := scanLoop_entry_mem _ now w0 14 0 0 d slots hm
    obtain ⟨hd, _, hlt, hslots, _⟩ := dayEntry_spec _ now w0 offset' d slots hde
    have ho : offset' ≠ 0 := by
      intro h0
      apply hne
      rw [hd, h0]
      simp
    have h0 : scanStart now d offset' = dayOpen d := by simp [scanStart, ho]
    rw [hslots, h0]
    exact slotsFmt_nil _ _ (by simp only [dayOpen, dayClose]; omega)
      (by simp only [dayOpen, dayClose]; omega)

/-- Witness for `check_availability_clips_today`: scanning from Monday
noon (`now = 43200`, `w0 = 0`) with a free calendar, today's slot starts
at noon, and Tuesday's slot is the full window. -/
theorem check_availability_clips_today_witness :
    max (43200 : Int) (dayOpen 0) ≤ 43200 ∧
    ∀ slots : List Iv, ((1 : Int), slots) ∈
        check_availability (fun _ _ => ([] : List Iv)) 43200 0 →
      slots = [(dayOpen 1, dayClose 1)] := by
  constructor
  · exact check_availability_clips_today.1 (fun _ _ => []) 43200 0 0
      [((43200 : Int), (61200 : Int))] 43200 61200 (by decide) (by decide)
  · intro slots hm
    exact check_availability_clips_today.2 43200 0 1 slots hm (by decide)

/-- C8: no report entry falls on a Saturday or Sunday: every reported
day's weekday index (Monday = 0) is below 5. -/
theorem check_availability_skips_weekends
    (busyQ : Int → Int → List Iv) (now w0 d : Int) (slots : List Iv)
    (hm : (d, slots) ∈ check_availability busyQ now w0) :
    weekdayOf w0 d < 5 := by
  obtain ⟨offset', hde⟩ := scanLoop_entry_mem busyQ now w0 14 0 0 d slots hm
  exact (dayEntry_spec busyQ now w0 offset' d slots hde).2.1

/-- Witness for `check_availability_skips_weekends`: a scan started on a
Friday (`w0 = 4`, `now = 0`) reports Friday, then skips the weekend and
reports Monday (day 3), whose weekday index is below 5. -/
theorem check_availability_skips_weekends_witness :
    ((3 : Int), [((288000 : Int), (320400 : Int))]) ∈
      check_availability (fun _ _ => ([] : List Iv)) 0 4 ∧
    weekdayOf 4 3 < 5 :=
  ⟨by decide, check_availability_skips_weekends (fun _ _ => []) 0 4 3
    [((288000 : Int), (320400 : Int))] (by decide)⟩

/-!
## `calendar_service.py` booking and event details

`create_meet_event` (lines 76-149) and `get_event_details` (lines 232-262).
The provider is modelled by its busy-interval state (`List Iv`) plus a
behaviour record saying whether `freebusy().query` or `events().insert`
raises and what the insert response is.  A Python dict from the Google API
is a structure with `Option` fields for optional keys; an uncaught Python
exception is the `Except.error` branch of the result.  The chained lookup
`event.get("conferenceData", {}).get("entryPoints", [{}])[0].get("uri")`
defaults an *absent* `entryPoints` to `[{}]`, but a *present empty list*
reaches `[0]` and raises `IndexError`.
-/

/-- A provider exception: the event id does not exist (HTTP 404), or any
other transport/server error.  `errString` is Python's `str(e)`. -/
inductive PError
  | notFound (msg : String)
  | transport (msg : String)
deriving DecidableEq

def errString : PError → String
  | .notFound msg => msg
  | .transport msg => msg

/-- An exception escaping the Python function: a propagated provider
exception, or the `IndexError` of the meet-link lookup. -/
inductive PyErr
  | provider (e : PError)
  | indexError
deriving DecidableEq

structure EntryPoint where
  uri : Option String
deriving DecidableEq

structure ConfData where
  entryPoints : Option (List EntryPoint)
deriving DecidableEq

/-- The provider's response to `events().insert`. -/
structure EventResp where
  id : String
  summary : String
  conferenceData : Option ConfData
  htmlLink : Option String
deriving DecidableEq

/-- `event.get("conferenceData", {}).get("entryPoints", [{}])[0].get("uri")`. -/
def extractMeetLink (cd : Option ConfData) : Except PyErr (Option String) :=
  let eps : List EntryPoint :=
    match cd with
    | none => [{ uri := none }]
    | some c => c.entryPoints.getD [{ uri := none }]
  match eps with
  | [] => Except.error PyErr.indexError
  | p :: _ => Except.ok p.uri

/-- The dict returned by `create_meet_event`: the rejection dict
`{"success": False, ..., "busy_slots": ...}` or the success dict. -/
inductive BookOutcome
  | rejected (busy_slots : List Iv)
  | booked (event_id : String) (meet_link : Option String)
    (calendar_link : Option String) (summary : String)
deriving DecidableEq

/-- Whether the provider's two calls raise, and the insert response. -/
structure ProviderBehavior where
  qerr : Option PError
  ierr : Option PError
  insResp : EventResp

/-- The provider's `freebusy().query` over `[lo, hi)` against busy state
`cal`: the stored intervals overlapping the range, clipped to it. -/
def queryBusy (cal : List Iv) (lo hi : Int) : List Iv :=
  clipFilter lo hi cal

/-- `CalendarService.create_meet_event`: query busy over `[startT, endT)`;
if any busy interval is returned, return the rejection dict without
touching the write path; otherwise insert (the busy state grows by the
event's range) and build the success dict, extracting the meet link from
the response.  The function has no `try/except`: provider errors and the
`IndexError` propagate as `Except.error`. -/
def create_meet_event (cal : List Iv) (pb : ProviderBehavior) (startT endT : Int) :
    Except PyErr BookOutcome × List Iv :=
  match pb.qerr with
  | some e => (Except.error (PyErr.provider e), cal)
  | none =>
    let busy := queryBusy cal startT endT
    if busy ≠ [] then (Except.ok (BookOutcome.rejected busy), cal)
    else
      match pb.ierr with
      | some e => (Except.error (PyErr.provider e), cal)
      | none =>
        let cal2 := cal ++ [(startT, endT)]
        match extractMeetLink pb.insResp.conferenceData with
        | Except.error e2 => (Except.error e2, cal2)
        | Except.ok link =>
          (Except.ok (BookOutcome.booked pb.insResp.id link pb.insResp.htmlLink
            pb.insResp.summary), cal2)

/-- The provider's response to `events().get`. -/
structure GEvent where
  id : String
  summary : String
  description : Option String
  startDT : Option Int
  endDT : Option Int
  attendees : List (Option String)
  conferenceData : Option ConfData
  htmlLink : Option String
deriving DecidableEq

structure EventDetails where
  event_id : String
  summary : String
  description : Option String
  startT : Int
  endT : Int
  attendees : List (Option String)
  calendar_link : Option String
  meet_link : Option String
deriving DecidableEq

/-- The dict returned by `get_event_details`: the projected event, or the
catch-all `{"success": False, "error": str(e)}` dict. -/
inductive DetailsRes
  | ok (d : EventDetails)
  | errDict (msg : String)
deriving DecidableEq

/-- `CalendarService.get_event_details`: the whole body is wrapped in
`try/except Exception as e: return {"success": False, "error": str(e)}`,
so a provider error, a missing `dateTime` (the `TypeError` raised by
`fromisoformat(None)`), or the empty-`entryPoints` `IndexError` all become
the same error-dict shape. -/
def get_event_details (pres : Except PError GEvent) : DetailsRes :=
  match pres with
  | Except.error e => DetailsRes.errDict (errString e)
  | Except.ok ev =>
    match ev.startDT with
    | none => DetailsRes.errDict "fromisoformat: argument must be str"
    | some s =>
      match ev.endDT with
      | none => DetailsRes.errDict "fromisoformat: argument must be str"
      | some t =>
        match extractMeetLink ev.conferenceData with
        | Except.error _ => DetailsRes.errDict "list index out of range"
        | Except.ok link =>
          DetailsRes.ok ⟨ev.id, ev.summary, ev.description, s, t, ev.attendees,
            ev.htmlLink, link⟩

/-- C1: when the busy query succeeds and reports at least one busy
interval, `create_meet_event` returns the rejection outcome carrying
exactly those intervals and the calendar state is unchanged; the result is
the same for every insert behaviour, i.e. the write path is never
consulted. -/
theorem create_meet_event_rejects_on_busy (cal : List Iv) (pb : ProviderBehavior)
    (startT endT : Int) (hq : pb.qerr = none)
    (hb : queryBusy cal startT endT ≠ []) :
    create_meet_event cal pb startT endT =
      (Except.ok (BookOutcome.rejected (queryBusy cal startT endT)), cal) := by
  simp [create_meet_event, hq, hb]

/-- Witness for `create_meet_event_rejects_on_busy`: booking `[0, 30)`
against a calendar busy on `[10, 20)` is rejected with that interval and
leaves the calendar unchanged. -/
theorem create_meet_event_rejects_on_busy_witness :
    create_meet_event [((10:Int), (20:Int))] ⟨none, none, ⟨"e1", "s", none, none⟩⟩ 0 30 =
      (Except.ok (BookOutcome.rejected [((10:Int), (20:Int))]), [((10:Int), (20:Int))]) := by
  have h := create_meet_event_rejects_on_busy [((10:Int), (20:Int))]
    ⟨none, none, ⟨"e1", "s", none, none⟩⟩ 0 30 rfl (by decide)
  have hq : queryBusy [((10:Int), (20:Int))] 0 30 = [((10:Int), (20:Int))] := by decide
  rw [hq] at h
  exact h

/-- C5: the meet-link lookup returns `null` without error when
`conferenceData` or `entryPoints` is absent, but a present-and-empty
`entryPoints` list raises `IndexError` — uncaught in `create_meet_event`,
and turned into the error dict by `get_event_details`'s catch-all. -/
theorem extractMeetLink_empty_entry_points :
    extractMeetLink none = Except.ok none ∧
    extractMeetLink (some ⟨none⟩) = Except.ok none ∧
    extractMeetLink (some ⟨some []⟩) = Except.error PyErr.indexError ∧
    get_event_details (Except.ok ⟨"e1", "s", none, some 0, some 10, [],
      some ⟨some []⟩, none⟩) = DetailsRes.errDict "list index out of range" :=
  ⟨rfl, rfl, rfl, rfl⟩

/-- C6 (counterexample to the claim as stated): a provider error raised by
the busy query propagates out of `create_meet_event` as the raw exception
— there is no conversion to a returned `ProviderUnavailable` failure — and
`get_event_details` returns the *same* error dict for a not-found error as
for any other provider error with the same message, so the two cases are
not distinguishable typed outcomes. -/
theorem provider_errors_not_typed :
    (create_meet_event [] ⟨some (PError.transport "boom"), none,
      ⟨"e1", "s", none, none⟩⟩ 0 100).1 =
      Except.error (PyErr.provider (PError.transport "boom")) ∧
    get_event_details (Except.error (PError.notFound "boom")) =
      get_event_details (Except.error (PError.transport "boom")) :=
  ⟨rfl, rfl⟩

/-- C6 (amended): `get_event_details` catches every provider exception and
returns the error dict carrying `str(e)` — one shape for not-found and for
any other provider error — while `create_meet_event` catches nothing: a
provider error in its query step or its insert step propagates unchanged
(with the calendar state untouched), and is a different constructor from
the `Rejected` outcome. -/
theorem provider_error_propagation (e : PError) (cal : List Iv)
    (pb : ProviderBehavior) (startT endT : Int) :
    get_event_details (Except.error e) = DetailsRes.errDict (errString e) ∧
    (pb.qerr = some e →
      create_meet_event cal pb startT endT = (Except.error (PyErr.provider e), cal)) ∧
    (pb.qerr = none → queryBusy cal startT endT = [] → pb.ierr = some e →
      create_meet_event cal pb startT endT = (Except.error (PyErr.provider e), cal)) := by
  refine ⟨rfl, fun hq => ?_, fun hq hb hi => ?_⟩
  · simp [create_meet_event, hq]
  · simp [create_meet_event, hq, hb, hi]

/-- Witness for `provider_error_propagation` at a concrete error, calendar
and request. -/
theorem provider_error_propagation_witness :
    create_meet_event [] ⟨none, some (PError.notFound "404"), ⟨"e1", "s", none, none⟩⟩
      0 100 = (Except.error (PyErr.provider (PError.notFound "404")), []) :=
  (provider_error_propagation (PError.notFound "404") []
    ⟨none, some (PError.notFound "404"), ⟨"e1", "s", none, none⟩⟩ 0 100).2.2
    rfl (by decide) rfl

/-!
## `crm_service.py` `update_client_dynamic`

Source (`src/services/google_sheet/crm_service.py`, lines 180-249), with
`resolve_client_id` (lines 23-41).  A worksheet row is a list of 12 cell
strings in the documented column order
`Id | Nombre | Telefono | Correo | Tipo | Estado | Nota | Usuario | Canal |
Fecha Creacion | Fecha Conversion | Thread_Id`; `update_cell(idx, col, v)`
writes the 1-based column `col` of the matched row.  A Python dict of
fields is a key/value list in iteration order. -/

/-- The fixed 12-entry `col_map` of `update_client_dynamic`.  `None` for a
key outside the map; `col_map.get(key)` followed by `if col:` skips
exactly those keys (no mapped column is 0, so truthiness is `some`). -/
def colMap (k : String) : Option Nat :=
  if k = "Id" then some 1
  else if k = "Nombre" then some 2
  else if k = "Telefono" then some 3
  else if k = "Correo" then some 4
  else if k = "Tipo" then some 5
  else if k = "Estado" then some 6
  else if k = "Nota" then some 7
  else if k = "Usuario" then some 8
  else if k = "Canal" then some 9
  else if k = "Fecha Creacion" then some 10
  else if k = "Fecha Conversion" then some 11
  else if k = "Thread_Id" then some 12
  else none

def rowId (row : List String) : String := row.getD 0 ""

def rowTel (row : List String) : String := row.getD 2 ""

/-- `"".join(filter(str.isdigit, s))`. -/
def digitsOnly (s : String) : String := String.mk (s.data.filter Char.isDigit)

/-- `resolve_client_id`: scan the records; a row matches by exact `Id` or
by digit-normalized `Telefono`; empty query resolves to nothing. -/
def resolve_client_id (records : List (List String)) (q : String) : Option String :=
  if q = "" then none
  else records.findSome? (fun row =>
    if rowId row = q then some (rowId row)
    else if digitsOnly (rowTel row) = digitsOnly q then some (rowId row)
    else none)

/-- One step of `for key, value in fields.items()`: a mapped key writes its
cell (`update_cell`) and is appended to `updated_fields`; an unmapped key
is skipped. -/
def applyFieldStep (acc : List String × List String) (kv : String × String) :
    List String × List String :=
  match colMap kv.1 with
  | some c => (acc.1.set (c - 1) kv.2, acc.2 ++ [kv.1])
  | none => acc

/-- The field loop over the matched row: returns the updated row and
`updated_fields`. -/
def applyFieldsToRow (row : List String) (fields : List (String × String)) :
    List String × List String :=
  fields.foldl applyFieldStep (row, [])

/-- The `for idx, row in enumerate(all_records, start=2)` scan: the first
row whose `Id` equals the resolved id receives the field updates and the
function returns; later rows are untouched. -/
def updateRows (rid : String) (fields : List (String × String)) :
    List (List String) → Option (List (List String) × List String)
  | [] => none
  | row :: rest =>
    if rowId row = rid then
      some ((applyFieldsToRow row fields).1 :: rest, (applyFieldsToRow row fields).2)
    else
      match updateRows rid fields rest with
      | some (rest2, ufs) => some (row :: rest2, ufs)
      | none => none

structure UpdateRes where
  success : Bool
  client_id : Option String
  updated_fields : List String
  error : Option String
deriving DecidableEq

/-- `CRMService.update_client_dynamic`: validate the arguments, resolve
the client, apply the field loop to the matched row, and return the result
dict together with the worksheet contents after the call. -/
def update_client_dynamic (records : List (List String)) (client_id : String)
    (fields : List (String × String)) : UpdateRes × List (List String) :=
  if client_id = "" then
    (⟨false, none, [], some "client_id requerido"⟩, records)
  else if fields = [] then
    (⟨false, none, [], some "No se proporcionaron campos"⟩, records)
  else
    match resolve_client_id records client_id with
    | none => (⟨false, none, [], some "No se encontro cliente"⟩, records)
    | some rid =>
      match updateRows rid fields records with
      | some (records2, ufs) => (⟨true, some rid, ufs, none⟩, records2)
      | none => (⟨false, none, [], some "Cliente no encontrado"⟩, records)

set_option maxHeartbeats 1000000 in
lemma colMap_bounds (k : String) (c : Nat) (h : colMap k = some c) :
    1 ≤ c ∧ c ≤ 12 := by
  unfold colMap at h
  split_ifs at h <;> (injection h with h2) <;> omega

lemma applyFields_fst_frame : ∀ (fields : List (String × String))
    (row ufs : List String) (j : Nat),
    (∀ kv ∈ fields, colMap kv.1 ≠ some (j + 1)) →
    (fields.foldl applyFieldStep (row, ufs)).1[j]? = row[j]? := by
  intro fields
  induction fields with
  | nil => intro row ufs j _; rfl
  | cons kv rest ih =>
    intro row ufs j hkv
    rw [List.foldl_cons]
    rcases hc : colMap kv.1 with _ | c
    · rw [show applyFieldStep (row, ufs) kv = (row, ufs) by
        simp [applyFieldStep, hc]]
      exact ih row ufs j (fun kv2 h2 => hkv kv2 (List.mem_cons_of_mem _ h2))
    · have hb := colMap_bounds kv.1 c hc
      have hne : c - 1 ≠ j := by
        have := hkv kv (List.mem_cons_self _ _)
        rw [hc] at this
        intro h3
        exact this (by rw [show c = j + 1 by omega])
      rw [show applyFieldStep (row, ufs) kv = (row.set (c - 1) kv.2, ufs ++ [kv.1]) by
        simp [applyFieldStep, hc]]
      rw [ih (row.set (c - 1) kv.2) (ufs ++ [kv.1]) j
        (fun kv2 h2 => hkv kv2 (List.mem_cons_of_mem _ h2))]
      exact List.getElem?_set_ne hne

lemma applyFields_snd_skip : ∀ (fields : List (String × String))
    (row ufs : List String) (k : String),
    colMap k = none → k ∉ ufs → k ∉ (fields.foldl applyFieldStep (row, ufs)).2 := by
  intro fields
  induction fields with
  | nil => intro row ufs k _ hk; exact hk
  | cons kv rest ih =>
    intro row ufs k hk hufs
    rw [List.foldl_cons]
    rcases hc : colMap kv.1 with _ | c
    · rw [show applyFieldStep (row, ufs) kv = (row, ufs) by
        simp [applyFieldStep, hc]]
      exact ih row ufs k hk hufs
    · rw [show applyFieldStep (row, ufs) kv = (row.set (c - 1) kv.2, ufs ++ [kv.1]) by
        simp [applyFieldStep, hc]]
      refine ih _ _ k hk ?_
      intro hmem
      rcases List.mem_append.1 hmem with h1 | h1
      · exact hufs h1
      · rw [List.mem_singleton] at h1
        subst h1
        rw [hc] at hk
        exact Option.noConfusion hk

lemma updateRows_spec : ∀ (records : List (List String)) (rid : String)
    (fields : List (String × String)) (records2 : List (List String))
    (ufs : List String),
    updateRows rid fields records = some (records2, ufs) →
    records2.length = records.length ∧
    (∀ k, colMap k = none → k ∉ ufs) ∧
    (∀ (i j : Nat) (row row2 : List String), records[i]? = some row →
      records2[i]? = some row2 →
      (∀ kv ∈ fields, colMap kv.1 ≠ some (j + 1)) → row2[j]? = row[j]?) := by
  intro records
  induction records with
  | nil => intro rid fields records2 ufs h; exact absurd h (by simp [updateRows])
  | cons row rest ih =>
    intro rid fields records2 ufs h
    simp only [updateRows] at h
    split_ifs at h with hid
    · simp only [Option.some.injEq, Prod.mk.injEq] at h
      obtain ⟨h1, h2⟩ := h
      subst h1
      subst h2
      refine ⟨by simp, fun k hk => applyFields_snd_skip fields row [] k hk (by simp), ?_⟩
      intro i j r r2 hr hr2 hkv
      match i with
      | 0 =>
        simp only [List.getElem?_cons_zero, Option.some.injEq] at hr hr2
        subst hr
        subst hr2
        exact applyFields_fst_frame fields _ [] j hkv
      | i + 1 =>
        simp only [List.getElem?_cons_succ] at hr hr2
        rw [hr] at hr2
        obtain rfl := Option.some.inj hr2
        rfl
    · rcases hu : updateRows rid fields rest with _ | p
      · rw [hu] at h; exact Option.noConfusion h
      · obtain ⟨rest2, ufs2⟩ := p
        rw [hu] at h
        simp only [Option.some.injEq, Prod.mk.injEq] at h
        obtain ⟨h1, h2⟩ := h
        subst h1
        subst h2
        obtain ⟨hl, hu2, hframe⟩ := ih rid fields rest2 _ hu
        refine ⟨by simp [hl], hu2, ?_⟩
        intro i j r r2 hr hr2 hkv
        match i with
        | 0 =>
          simp only [List.getElem?_cons_zero, Option.some.injEq] at hr hr2
          rw [← hr, ← hr2]
        | i + 1 =>
          simp only [List.getElem?_cons_succ] at hr hr2
          exact hframe i j r r2 hr hr2 hkv

/-- C10: a successful `update_client_dynamic` reports no error; every
field key outside the fixed 12-entry column map is silently skipped — it
never appears in `updated_fields` — and every worksheet cell in a column
not named by any field key is left unchanged (in particular all cells of
all rows for unmapped keys). -/
theorem update_client_dynamic_skips_unknown
    (records : List (List String)) (client_id : String)
    (fields : List (String × String)) (res : UpdateRes)
    (records2 : List (List String))
    (h : update_client_dynamic records client_id fields = (res, records2))
    (hs : res.success = true) :
    res.error = none ∧
    (∀ k, colMap k = none → k ∉ res.updated_fields) ∧
    records2.length = records.length ∧
    (∀ (i j : Nat) (row row2 : List String), records[i]? = some row →
      records2[i]? = some row2 →
      (∀ kv ∈ fields, colMap kv.1 ≠ some (j + 1)) → row2[j]? = row[j]?) := by
  simp only [update_client_dynamic] at h
  split_ifs at h with h1 h2
  · injection h with hres hrec
    subst hres
    exact absurd hs (by simp)
  · injection h with hres hrec
    subst hres
    exact absurd hs (by simp)
  · split at h
    next heq =>
      injection h with hres hrec
      subst hres
      exact absurd hs (by simp)
    next rid heq =>
      split at h
      next recs2 ufs hequ =>
        injection h with hres hrec
        subst hres
        subst hrec
        obtain ⟨hl, hskip, hframe⟩ := updateRows_spec records rid fields recs2 ufs hequ
        exact ⟨rfl, hskip, hl, hframe⟩
      next hequ =>
        injection h with hres hrec
        subst hres
        exact absurd hs (by simp)

/-- Witness for `update_client_dynamic_skips_unknown`: updating client
`abc` with a mapped key (`Estado`) and an unmapped key (`Foo`) succeeds,
`Foo` is absent from `updated_fields`, and the `Nombre` cell (column 2,
named by no field key) is unchanged. -/
theorem update_client_dynamic_skips_unknown_witness :
    "Foo" ∉ (update_client_dynamic
      [["abc", "Juan", "123", "", "Lead", "Nuevo", "", "", "wa", "", "", ""]]
      "abc" [("Estado", "Activo"), ("Foo", "x")]).1.updated_fields := by
  have h := update_client_dynamic_skips_unknown
    [["abc", "Juan", "123", "", "Lead", "Nuevo", "", "", "wa", "", "", ""]]
    "abc" [("Estado", "Activo"), ("Foo", "x")] _ _ rfl (by decide)
  exact h.2.1 "Foo" (by decide)
